import Mathlib

set_option maxRecDepth 8000

/-!
Shallow embedding of the project-zipper core: the gitignore-style matcher
behind `GitignoreParser`, the recursive directory walk of `FileScanner`,
and `ProjectZipper.mergeDefaultOptions`.

`GitignoreParser.shouldIgnore` delegates pattern matching to the external
`ignore` library; that library is not part of this repository, so the
matcher below is modelled from the spec's description of the dialect:
ordered rules, `!` negation, trailing-`/` directory-only rules, leading or
embedded `/` anchoring, `*` `**` `?` `[...]` globbing, last-match-wins on
the path itself, the ancestor cascade (a negated pattern cannot re-include
a file inside an excluded directory), and a queried path whose kind is
unknown — a bare string with no trailing slash — treated as a
non-directory by directory-only rules.

Paths are lists of segments; the scanner's `path.join` and `path.relative`
become list append and dropping the root prefix. String processing is done
on `List Char` so that every definition is structurally recursive and
evaluates inside the kernel.
-/

/-- Split a character list at every occurrence of the separator, mirroring
`String.splitOn` for a one-character separator. -/
def splitCh (sep : Char) : List Char → List (List Char)
  | [] => [[]]
  | c :: rest =>
    let r := splitCh sep rest
    if c = sep then [] :: r
    else
      match r with
      | [] => [[c]]
      | g :: gs => (c :: g) :: gs

/-- Split a relative path string into its `/`-separated segments. -/
def splitPath (s : String) : List String :=
  (splitCh '/' s.toList).map String.mk

/-- One item of a character class `[...]` inside a glob segment: a single
character or an inclusive range `lo-hi`. -/
inductive ClsItem where
  | ch (c : Char)
  | range (lo hi : Char)
  deriving DecidableEq

/-- One token of a glob segment pattern: a literal character, the
one-character wildcard `?`, the within-segment wildcard `*`, or a
(possibly negated) character class. -/
inductive GlobTok where
  | lit (c : Char)
  | any
  | star
  | cls (neg : Bool) (items : List ClsItem)
  deriving DecidableEq

/-- Tokenizer state: scanning ordinary pattern text, or inside a `[...]`
class with the items collected so far and the raw characters consumed
since the opening bracket (kept for the permissive fallback when the class
never closes). -/
inductive TokState where
  | norm
  | cls (neg : Bool) (items : List ClsItem) (seen : List Char)

/-- Modelled from the spec: tokenize one glob segment. `*`, `?` and `\c`
are handled directly; `[` opens a character class whose body is collected
item by item (singles and `a-b` ranges, leading `!` negating); an
unterminated class is treated permissively as literal characters rather
than failing, per the spec's malformed-pattern rule. -/
def tokenizeAux : TokState → List Char → List GlobTok
  | TokState.norm, [] => []
  | TokState.norm, '*' :: rest => GlobTok.star :: tokenizeAux TokState.norm rest
  | TokState.norm, '?' :: rest => GlobTok.any :: tokenizeAux TokState.norm rest
  | TokState.norm, '\\' :: c :: rest => GlobTok.lit c :: tokenizeAux TokState.norm rest
  | TokState.norm, '[' :: '!' :: rest => tokenizeAux (TokState.cls true [] ['!']) rest
  | TokState.norm, '[' :: rest => tokenizeAux (TokState.cls false [] []) rest
  | TokState.norm, c :: rest => GlobTok.lit c :: tokenizeAux TokState.norm rest
  | TokState.cls _ _ seen, [] => GlobTok.lit '[' :: seen.map GlobTok.lit
  | TokState.cls neg items _, ']' :: rest => GlobTok.cls neg items :: tokenizeAux TokState.norm rest
  | TokState.cls neg items seen, a :: '-' :: b :: rest =>
    if b = ']' then
      GlobTok.cls neg (items ++ [ClsItem.ch a, ClsItem.ch '-']) :: tokenizeAux TokState.norm rest
    else tokenizeAux (TokState.cls neg (items ++ [ClsItem.range a b]) (seen ++ [a, '-', b])) rest
  | TokState.cls neg items seen, a :: rest =>
    tokenizeAux (TokState.cls neg (items ++ [ClsItem.ch a]) (seen ++ [a])) rest

/-- Tokenize a whole glob segment. -/
def tokenize (cs : List Char) : List GlobTok :=
  tokenizeAux TokState.norm cs

/-- Does character `c` satisfy the (possibly negated) class items? -/
def classMatch (neg : Bool) (items : List ClsItem) (c : Char) : Bool :=
  let hit := items.any fun it =>
    match it with
    | ClsItem.ch a => a == c
    | ClsItem.range lo hi => decide (lo ≤ c) && decide (c ≤ hi)
  if neg then !hit else hit

/-- Modelled from the spec: match a tokenized glob segment against the
characters of one path segment; `*` absorbs any run of characters within
the segment. -/
def tokMatch : List GlobTok → List Char → Bool
  | [], cs => cs.isEmpty
  | GlobTok.star :: ps, cs => cs.tails.any fun suf => tokMatch ps suf
  | GlobTok.any :: ps, cs =>
    match cs with
    | [] => false
    | _ :: cs' => tokMatch ps cs'
  | GlobTok.lit p :: ps, cs =>
    match cs with
    | [] => false
    | c :: cs' => (p == c) && tokMatch ps cs'
  | GlobTok.cls neg items :: ps, cs =>
    match cs with
    | [] => false
    | c :: cs' => classMatch neg items c && tokMatch ps cs'

/-- One segment of a parsed rule pattern: the cross-segment wildcard `**`
or an ordinary tokenized glob segment. -/
inductive PatSeg where
  | doubleStar
  | seg (toks : List GlobTok)
  deriving DecidableEq

/-- Modelled from the spec: turn one slash-delimited piece of a rule
pattern into a pattern segment. -/
def toPatSeg (cs : List Char) : PatSeg :=
  if cs = ['*', '*'] then PatSeg.doubleStar else PatSeg.seg (tokenize cs)

/-- Modelled from the spec: match a sequence of pattern segments against a
sequence of path segments; `**` may absorb any number of whole segments. -/
def segsMatch : List PatSeg → List String → Bool
  | [], segs => segs.isEmpty
  | PatSeg.doubleStar :: ps, segs => segs.tails.any fun suf => segsMatch ps suf
  | PatSeg.seg toks :: ps, segs =>
    match segs with
    | [] => false
    | s :: rest => tokMatch toks s.toList && segsMatch ps rest

/-- One parsed rule of the ignore file: the `!` negation flag, the
trailing-`/` directory-only flag, whether the pattern is anchored to the
root (leading or embedded `/`), and the pattern segments. -/
structure IgnoreRule where
  negation : Bool
  dirOnly : Bool
  anchored : Bool
  pat : List PatSeg
  deriving DecidableEq

/-- Modelled from the spec: parse one line of the ignore file. Blank lines
and `#` comments yield no rule; a leading `!` sets `negation` and is
stripped; a trailing unescaped `/` sets `dirOnly` and is stripped; a
leading `/` anchors and is stripped, and otherwise the rule is anchored
exactly when a `/` remains embedded in the pattern. -/
def parseLineChars (cs : List Char) : Option IgnoreRule :=
  if cs.all Char.isWhitespace then none
  else
    match cs with
    | '#' :: _ => none
    | _ =>
      let negation := cs.head? = some '!'
      let body1 := if negation then cs.tail else cs
      let dirOnly :=
        match body1.reverse with
        | '/' :: '\\' :: _ => false
        | '/' :: _ => true
        | _ => false
      let body2 := if dirOnly then body1.dropLast else body1
      let anchored := body2.head? = some '/' || body2.contains '/'
      let body3 := if body2.head? = some '/' then body2.tail else body2
      some { negation := negation
             dirOnly := dirOnly
             anchored := anchored
             pat := (splitCh '/' body3).map toPatSeg }

/-- Parse one line given as a string. -/
def parseLine (line : String) : Option IgnoreRule :=
  parseLineChars line.toList

/-- Modelled from the spec: parse the whole ignore-file content, one rule
per line, preserving file order. -/
def parseGitignore (content : String) : List IgnoreRule :=
  (splitCh '\n' content.toList).filterMap parseLineChars

/-- Embedding of `GitignoreParser.loadGitignore`: when the ignore file is
absent (`none`) the rule set is empty; otherwise its content is parsed. -/
def loadGitignore (content : Option String) : List IgnoreRule :=
  match content with
  | none => []
  | some c => parseGitignore c

/-- Modelled from the spec: does one rule match the given path (as
segments, `isDir` telling whether the path is known to be a directory)?
A directory-only rule matches only a directory; an anchored pattern must
match the whole path from the root; an unanchored pattern matches the
final segment at any depth. -/
def matchesRule (r : IgnoreRule) (segs : List String) (isDir : Bool) : Bool :=
  (!r.dirOnly || isDir) &&
    (if r.anchored then segsMatch r.pat segs
     else
       match segs.getLast? with
       | none => false
       | some s => segsMatch r.pat [s])

/-- Modelled from the spec: evaluate all rules in file order against the
path itself — a non-negated match sets the verdict to excluded, a negated
match sets it back to included, and the verdict defaults to included when
no rule matches (last-match-wins on the path itself). -/
def testOne (rules : List IgnoreRule) (segs : List String) (isDir : Bool) : Bool :=
  rules.foldl (fun v r => if matchesRule r segs isDir then !r.negation else v) false

/-- Modelled from the spec: full verdict including the dialect's ancestor
cascade — walking the path from the root, if any proper ancestor directory
is excluded by the rules (queried as a directory) the whole path is
excluded regardless of later negations; otherwise the path's own rule
evaluation decides. `pre` is the already-visited ancestor prefix. -/
def ignoresFrom (rules : List IgnoreRule) (pre : List String) : List String → Bool → Bool
  | [], _ => false
  | [s], isDir => testOne rules (pre ++ [s]) isDir
  | s :: rest, isDir =>
    if testOne rules (pre ++ [s]) true then true
    else ignoresFrom rules (pre ++ [s]) rest isDir

/-- Verdict of the matcher on a path given as segments. -/
def ignoresSegs (rules : List IgnoreRule) (segs : List String) (isDir : Bool) : Bool :=
  ignoresFrom rules [] segs isDir

/-- Embedding of `GitignoreParser.shouldIgnore`: the queried path is a bare
relative string (no trailing slash), so its kind is unknown and
directory-only rules see it as a non-directory. -/
def shouldIgnore (rules : List IgnoreRule) (filePath : String) : Bool :=
  ignoresSegs rules (splitPath filePath) false

/-- Verdict the spec's last-match-wins sentence assigns to a path: the
verdict of the last rule in file order that matches the path, defaulting
to included. Stated from the claim's words, to be compared with the
source-modelled `ignoresSegs`. -/
def specLastMatchVerdict (rules : List IgnoreRule) (segs : List String) (isDir : Bool) : Bool :=
  match rules.reverse.find? (fun r => matchesRule r segs isDir) with
  | some r => !r.negation
  | none => false

mutual
/-- Filesystem tree entry for the walk. A `file` is a regular file; a
`broken` entry is one whose `fs.promises.stat` call fails (permission
denied or deleted between listing and stat); a `dir` carries its listed
children in directory-listing order. Mutually inductive with `FSList` so
the scan is structurally recursive. -/
inductive FSNode where
  | file (name : String)
  | broken (name : String)
  | dir (name : String) (children : FSList)
/-- Listing of directory entries in order. -/
inductive FSList where
  | nil
  | cons (e : FSNode) (rest : FSList)
end

/-- Name of a directory entry. -/
def nodeName : FSNode → String
  | FSNode.file n => n
  | FSNode.broken n => n
  | FSNode.dir n _ => n

/-- Build an `FSList` from an ordinary list of nodes. -/
def fsList : List FSNode → FSList
  | [] => FSList.nil
  | e :: r => FSList.cons e (fsList r)

/-- Error with which a scan can reject: `fs.promises.stat` failing on an
entry (carrying the absolute path), or `fs.promises.readdir` on the root
failing because the root is missing or not a directory. -/
inductive ScanErr where
  | statFailed (p : List String)
  | rootMissing
  | rootNotDirectory
  deriving DecidableEq

/-- Observable trace of one scan: the absolute paths pushed into `files`,
the directories whose entries were read (`fs.promises.readdir` calls, in
order), and the relative paths passed to `shouldIgnore` (the matcher
queries, in order). -/
structure ScanTrace where
  files : List (List String)
  dirsRead : List (List String)
  queries : List (List String)
  deriving DecidableEq

/-- Embedding of `path.relative(root, p)` for a path `p` lying under
`root`: drop the root prefix. -/
def pathRelative (root p : List String) : List String :=
  p.drop root.length

/-- Embedding of the loop body of `FileScanner.scanDirectory` over the
listed entries of directory `dirp` (absolute): for each entry compute its
full path and root-relative path, query the matcher and skip on exclusion,
otherwise stat — a `broken` entry rejects the whole scan (the source has
no try/catch) — then recurse into directories and push files. -/
def scanEntries (rules : List IgnoreRule) (root : List String) :
    List String → FSList → Except ScanErr ScanTrace
  | _, FSList.nil => Except.ok ⟨[], [], []⟩
  | dirp, FSList.cons (FSNode.file n) rest =>
    if ignoresSegs rules (pathRelative root (dirp ++ [n])) false then
      match scanEntries rules root dirp rest with
      | Except.ok tr => Except.ok ⟨tr.files, tr.dirsRead, pathRelative root (dirp ++ [n]) :: tr.queries⟩
      | Except.error e2 => Except.error e2
    else
      match scanEntries rules root dirp rest with
      | Except.ok tr =>
        Except.ok ⟨(dirp ++ [n]) :: tr.files, tr.dirsRead, pathRelative root (dirp ++ [n]) :: tr.queries⟩
      | Except.error e2 => Except.error e2
  | dirp, FSList.cons (FSNode.broken n) rest =>
    if ignoresSegs rules (pathRelative root (dirp ++ [n])) false then
      match scanEntries rules root dirp rest with
      | Except.ok tr => Except.ok ⟨tr.files, tr.dirsRead, pathRelative root (dirp ++ [n]) :: tr.queries⟩
      | Except.error e2 => Except.error e2
    else Except.error (ScanErr.statFailed (dirp ++ [n]))
  | dirp, FSList.cons (FSNode.dir n cs) rest =>
    if ignoresSegs rules (pathRelative root (dirp ++ [n])) false then
      match scanEntries rules root dirp rest with
      | Except.ok tr => Except.ok ⟨tr.files, tr.dirsRead, pathRelative root (dirp ++ [n]) :: tr.queries⟩
      | Except.error e2 => Except.error e2
    else
      match scanEntries rules root (dirp ++ [n]) cs with
      | Except.error e2 => Except.error e2
      | Except.ok sub =>
        match scanEntries rules root dirp rest with
        | Except.ok tr =>
          Except.ok ⟨sub.files ++ tr.files,
                     (dirp ++ [n]) :: (sub.dirsRead ++ tr.dirsRead),
                     pathRelative root (dirp ++ [n]) :: (sub.queries ++ tr.queries)⟩
        | Except.error e2 => Except.error e2

/-- State of the scan root on disk: absent, present but not a directory,
or a directory with its listed entries. -/
inductive RootState where
  | missing
  | notADirectory
  | directory (entries : FSList)

/-- Embedding of `FileScanner.scanFiles`: `readdir` on a missing root or a
non-directory root rejects (ENOENT / ENOTDIR propagate, there is no
try/catch); otherwise the recursive walk runs from the root, whose own
entry listing is the first directory read. -/
def scanFiles (rules : List IgnoreRule) (root : List String) : RootState → Except ScanErr ScanTrace
  | RootState.missing => Except.error ScanErr.rootMissing
  | RootState.notADirectory => Except.error ScanErr.rootNotDirectory
  | RootState.directory es =>
    match scanEntries rules root root es with
    | Except.ok tr => Except.ok ⟨tr.files, root :: tr.dirsRead, tr.queries⟩
    | Except.error e2 => Except.error e2

/-- Two consecutive scans of the same (unmodified) tree, as the pair of
their results; each call of `scanFiles` owns a fresh accumulator, exactly
as each `scanFiles()` call in the source allocates a fresh `files` array. -/
def scanTwice (rules : List IgnoreRule) (root : List String) (st : RootState) :
    Except ScanErr ScanTrace × Except ScanErr ScanTrace :=
  (scanFiles rules root st, scanFiles rules root st)

/-- File list of a scan result, empty on error. -/
def filesOfResult : Except ScanErr ScanTrace → List (List String)
  | Except.ok tr => tr.files
  | Except.error _ => []

/-- Directories read during a scan, empty on error. -/
def dirsReadOfResult : Except ScanErr ScanTrace → List (List String)
  | Except.ok tr => tr.dirsRead
  | Except.error _ => []

/-- Names of the entries of a directory listing. -/
def fsNames : FSList → List String
  | FSList.nil => []
  | FSList.cons e rest => nodeName e :: fsNames rest

/-- Spec-side description of "every regular file under the root,
recursively", as root-relative segment paths in listing order. Stated from
the claim's words, to be compared with what the scan returns. -/
def specRelFiles : FSList → List (List String)
  | FSList.nil => []
  | FSList.cons (FSNode.file n) rest => [n] :: specRelFiles rest
  | FSList.cons (FSNode.broken _) rest => specRelFiles rest
  | FSList.cons (FSNode.dir n cs) rest =>
    (specRelFiles cs).map (fun p => n :: p) ++ specRelFiles rest

/-- Does the tree contain no entry whose stat would fail? -/
def errFree : FSList → Bool
  | FSList.nil => true
  | FSList.cons (FSNode.broken _) _ => false
  | FSList.cons (FSNode.dir _ cs) rest => errFree cs && errFree rest
  | FSList.cons (FSNode.file _) rest => errFree rest

/-- Well-formed tree: sibling names are distinct at every level, as in a
real filesystem directory. -/
def wfEntries : FSList → Bool
  | FSList.nil => true
  | FSList.cons (FSNode.dir n cs) rest =>
    !(fsNames rest).contains n && wfEntries cs && wfEntries rest
  | FSList.cons e rest => !(fsNames rest).contains (nodeName e) && wfEntries rest

/-- Relocation of a trace by an absolute root prefix: absolute paths
(files, directories read) gain the prefix; matcher queries, being
root-relative, do not change. -/
def relocTrace (r : List String) (tr : ScanTrace) : ScanTrace :=
  ⟨tr.files.map (fun p => r ++ p), tr.dirsRead.map (fun p => r ++ p), tr.queries⟩

/-- Relocation of a scan error by an absolute root prefix. -/
def relocErr (r : List String) : ScanErr → ScanErr
  | ScanErr.statFailed p => ScanErr.statFailed (r ++ p)
  | e2 => e2

/-- Relocation of a whole scan result by an absolute root prefix. -/
def relocResult (r : List String) : Except ScanErr ScanTrace → Except ScanErr ScanTrace
  | Except.ok tr => Except.ok (relocTrace r tr)
  | Except.error e2 => Except.error (relocErr r e2)

/-- Embedding of the `ZipOptions` input interface: every field optional
(`undefined` is `none`). -/
structure ZipOptions where
  outputPath : Option String := none
  outputName : Option String := none
  includeHidden : Option Bool := none
  compressionLevel : Option Nat := none

/-- Fully resolved options, `Required<ZipOptions>` in the source. -/
structure ResolvedZipOptions where
  outputPath : String
  outputName : String
  includeHidden : Bool
  compressionLevel : Nat
  deriving DecidableEq

/-- JavaScript `a || d` for an optional string: `undefined` and the empty
string are falsy. -/
def jsOrString (v : Option String) (d : String) : String :=
  match v with
  | none => d
  | some s => if s = "" then d else s

/-- JavaScript `a || d` for an optional number over the 0–9 compression
range: `undefined` and `0` are falsy. -/
def jsOrNat (v : Option Nat) (d : Nat) : Nat :=
  match v with
  | none => d
  | some n => if n = 0 then d else n

/-- JavaScript `a || d` for an optional boolean. -/
def jsOrBool (v : Option Bool) (d : Bool) : Bool :=
  match v with
  | none => d
  | some b => b || d

/-- Embedding of `ProjectZipper.mergeDefaultOptions`: each field is
`options.field || default`. -/
def mergeDefaultOptions (o : ZipOptions) : ResolvedZipOptions :=
  { outputPath := jsOrString o.outputPath "./dist"
    outputName := jsOrString o.outputName "project.zip"
    includeHidden := jsOrBool o.includeHidden false
    compressionLevel := jsOrNat o.compressionLevel 6 }

/-- Rule list of the claims' `["*.log", "!important.log"]` example. -/
def rulesLogExample : List IgnoreRule :=
  ["*.log", "!important.log"].filterMap parseLine

/-- Rule list of the claims' `["build/", "!build/keep.txt"]` example. -/
def rulesBuildExample : List IgnoreRule :=
  ["build/", "!build/keep.txt"].filterMap parseLine

/-- Rule list with only the directory-only rule `build/`. -/
def rulesDirOnlyExample : List IgnoreRule :=
  ["build/"].filterMap parseLine

/-- Tree with a `build` directory holding one file, plus a root file. -/
def treeBuildExample : RootState :=
  RootState.directory
    (fsList [FSNode.dir "build" (fsList [FSNode.file "keep.txt"]), FSNode.file "a.txt"])

/-- Tree whose middle entry fails to stat. -/
def treeBrokenExample : RootState :=
  RootState.directory
    (fsList [FSNode.file "a.txt", FSNode.broken "b.txt", FSNode.file "c.txt"])

/-- Small well-formed, error-free tree. -/
def treePlainEntries : FSList :=
  fsList [FSNode.file "a.txt", FSNode.dir "d" (fsList [FSNode.file "b.txt"])]

theorem foldl_verdict_eq (p : IgnoreRule → Bool) :
    ∀ (rules : List IgnoreRule) (v : Bool),
      rules.foldl (fun acc r => if p r then !r.negation else acc) v =
        (match rules.reverse.find? p with
         | some r => !r.negation
         | none => v) := by
  intro rules
  induction rules with
  | nil => intro v; rfl
  | cons r rs ih =>
    intro v
    simp only [List.foldl_cons, List.reverse_cons, List.find?_append]
    rw [ih]
    cases h : rs.reverse.find? p with
    | some r' => simp [h, Option.or]
    | none =>
      by_cases hp : p r = true
      · simp [h, Option.or, List.find?, hp]
      · simp only [Bool.not_eq_true] at hp
        simp [h, Option.or, List.find?, hp]

theorem testOne_eq_specLast (rules : List IgnoreRule) (segs : List String) (isDir : Bool) :
    testOne rules segs isDir = specLastMatchVerdict rules segs isDir :=
  foldl_verdict_eq (fun r => matchesRule r segs isDir) rules false

theorem ignoresFrom_iff (rules : List IgnoreRule) :
    ∀ (rest pre : List String) (isDir : Bool),
      ignoresFrom rules pre rest isDir = true ↔
        ((∃ mid suf, rest = mid ++ suf ∧ mid ≠ [] ∧ suf ≠ [] ∧
            testOne rules (pre ++ mid) true = true) ∨
          (rest ≠ [] ∧ testOne rules (pre ++ rest) isDir = true)) := by
  intro rest
  induction rest with
  | nil =>
    intro pre isDir
    constructor
    · intro h; exact absurd h (by simp [ignoresFrom])
    · rintro (⟨mid, suf, h, hm, hs, _⟩ | ⟨h, _⟩)
      · rcases List.append_eq_nil.mp h.symm with ⟨h1, _⟩
        exact absurd h1 hm
      · exact absurd rfl h
  | cons s rest ih =>
    intro pre isDir
    cases rest with
    | nil =>
      simp only [ignoresFrom]
      constructor
      · intro h
        right
        exact ⟨by simp, h⟩
      · rintro (⟨mid, suf, h, hm, hs, _⟩ | ⟨_, h⟩)
        · exfalso
          have hl := congrArg List.length h
          have hm' := List.length_pos.mpr hm
          have hs' := List.length_pos.mpr hs
          simp [List.length_append] at hl
          omega
        · exact h
    | cons t rest2 =>
      have hps : ∀ mid : List String, pre ++ s :: mid = (pre ++ [s]) ++ mid := by
        intro mid
        simp
      by_cases htop : testOne rules (pre ++ [s]) true = true
      · constructor
        · intro _
          left
          exact ⟨[s], t :: rest2, rfl, by simp, by simp, htop⟩
        · intro _
          show (if testOne rules (pre ++ [s]) true then true
                else ignoresFrom rules (pre ++ [s]) (t :: rest2) isDir) = true
          rw [htop]
          simp
      · simp only [Bool.not_eq_true] at htop
        have hunf : ignoresFrom rules pre (s :: t :: rest2) isDir =
            ignoresFrom rules (pre ++ [s]) (t :: rest2) isDir := by
          show (if testOne rules (pre ++ [s]) true then true
                else ignoresFrom rules (pre ++ [s]) (t :: rest2) isDir) = _
          rw [htop]
          simp
        rw [hunf, ih (pre ++ [s]) isDir]
        constructor
        · rintro (⟨mid, suf, h, hm, hs, ht⟩ | ⟨_, ht⟩)
          · left
            refine ⟨s :: mid, suf, ?_, by simp, hs, ?_⟩
            · rw [List.cons_append, ← h]
            · rw [hps]
              exact ht
          · right
            refine ⟨by simp, ?_⟩
            rw [hps]
            exact ht
        · rintro (⟨mid, suf, h, hm, hs, ht⟩ | ⟨_, ht⟩)
          · cases mid with
            | nil => exact absurd rfl hm
            | cons m ms =>
              rw [List.cons_append] at h
              injection h with h1 h2
              subst h1
              cases ms with
              | nil =>
                rw [hps] at ht
                simp only [List.append_nil] at ht
                exact absurd ht (by simp [htop])
              | cons m2 ms2 =>
                left
                refine ⟨m2 :: ms2, suf, h2, by simp, hs, ?_⟩
                rw [hps] at ht
                exact ht
          · right
            refine ⟨by simp, ?_⟩
            rw [hps] at ht
            exact ht

theorem testOne_nil_rules (segs : List String) (isDir : Bool) :
    testOne [] segs isDir = false := rfl

theorem ignoresFrom_nil_rules (pre rest : List String) (isDir : Bool) :
    ignoresFrom [] pre rest isDir = false := by
  cases h : ignoresFrom [] pre rest isDir with
  | false => rfl
  | true =>
    rcases (ignoresFrom_iff [] rest pre isDir).mp h with ⟨_, _, _, _, _, ht⟩ | ⟨_, ht⟩ <;>
      exact absurd ht (by rw [testOne_nil_rules]; simp)

/-- Claim C1 (amended): provided the path is nonempty and no proper
ancestor prefix of it is excluded (queried as a directory), the matcher's
verdict is exactly that of the last rule in file order matching the path,
defaulting to included when no rule matches. The proviso is forced by the
dialect's ancestor cascade, see the counterexample. -/
theorem c1_last_match_wins (rules : List IgnoreRule) (segs : List String) (isDir : Bool)
    (hne : segs ≠ [])
    (hanc : ∀ p q, segs = p ++ q → p ≠ [] → q ≠ [] → ignoresSegs rules p true = false) :
    ignoresSegs rules segs isDir = specLastMatchVerdict rules segs isDir := by
  rw [← testOne_eq_specLast]
  cases ht : testOne rules segs isDir with
  | true =>
    apply (ignoresFrom_iff rules segs [] isDir).mpr
    right
    exact ⟨hne, by rwa [List.nil_append]⟩
  | false =>
    cases hi : ignoresSegs rules segs isDir with
    | false => rfl
    | true =>
      exfalso
      rcases (ignoresFrom_iff rules segs [] isDir).mp hi with ⟨mid, suf, h, hm, hs, hmid⟩ | ⟨_, h⟩
      · have hfalse := hanc mid suf h hm hs
        have htrue : ignoresSegs rules mid true = true := by
          apply (ignoresFrom_iff rules mid [] true).mpr
          right
          exact ⟨hm, by rwa [List.nil_append] at hmid⟩
        rw [hfalse] at htrue
        exact Bool.false_ne_true htrue
      · rw [List.nil_append] at h
        rw [ht] at h
        exact Bool.false_ne_true h

/-- Claim C1, the claim as stated is false: with rules
`["build/", "!build/keep.txt"]` the last rule matching the path
`build/keep.txt` is the negated one (verdict "included"), yet the matcher
excludes the path, because its ancestor directory `build` is excluded. -/
theorem c1_last_match_wins_counterexample :
    specLastMatchVerdict rulesBuildExample ["build", "keep.txt"] false = false ∧
      ignoresSegs rulesBuildExample ["build", "keep.txt"] false = true ∧
      shouldIgnore rulesBuildExample "build/keep.txt" = true := by decide

/-- Claim C1, witness: the claim's own example rules `["*.log",
"!important.log"]` satisfy the proviso on the one-segment paths, where the
verdict is last-match-wins; and the two example verdicts hold. -/
theorem c1_last_match_wins_witness :
    ignoresSegs rulesLogExample ["important.log"] false =
        specLastMatchVerdict rulesLogExample ["important.log"] false ∧
      shouldIgnore rulesLogExample "important.log" = false ∧
      shouldIgnore rulesLogExample "debug.log" = true :=
  ⟨c1_last_match_wins rulesLogExample ["important.log"] false (by decide)
      (by
        intro p q h hp hq
        exfalso
        have hl := congrArg List.length h
        have hp' := List.length_pos.mpr hp
        have hq' := List.length_pos.mpr hq
        simp [List.length_append] at hl
        omega),
    by decide, by decide⟩

/-- Claim C2: whenever an ancestor directory of a path is excluded by the
rules (queried as a directory), the path itself is excluded, whatever
later rules — negated ones included — say about the path itself. -/
theorem c2_ancestor_excluded (rules : List IgnoreRule) (pre suf : List String) (isDir : Bool)
    (hpre : pre ≠ []) (hsuf : suf ≠ []) (hex : ignoresSegs rules pre true = true) :
    ignoresSegs rules (pre ++ suf) isDir = true := by
  apply (ignoresFrom_iff rules (pre ++ suf) [] isDir).mpr
  rcases (ignoresFrom_iff rules pre [] true).mp hex with ⟨mid, suf', h, hm, hs, ht⟩ | ⟨_, ht⟩
  · left
    exact ⟨mid, suf' ++ suf, by rw [h, List.append_assoc], hm,
      by simp [hs, List.append_eq_nil], ht⟩
  · left
    exact ⟨pre, suf, rfl, hpre, hsuf, ht⟩

/-- Claim C2, witness: with rules `["build/", "!build/keep.txt"]` the
directory `build` is excluded, so `build/keep.txt` stays excluded despite
the later negated rule naming it. -/
theorem c2_ancestor_excluded_witness :
    ignoresSegs rulesBuildExample (["build"] ++ ["keep.txt"]) false = true ∧
      shouldIgnore rulesBuildExample "build/keep.txt" = true :=
  ⟨c2_ancestor_excluded rulesBuildExample ["build"] ["keep.txt"] false
      (by decide) (by decide) (by decide),
    by decide⟩

/-- Claim C7: when the ignore file is absent at the project root, matcher
construction yields the empty rule set and no path whatsoever is
excluded. -/
theorem c7_missing_ignore_file_excludes_nothing :
    loadGitignore none = [] ∧
      ∀ filePath : String, shouldIgnore (loadGitignore none) filePath = false :=
  ⟨rfl, fun filePath => ignoresFrom_nil_rules [] (splitPath filePath) false⟩

theorem ignoresSegs_nil_rules (segs : List String) (isDir : Bool) :
    ignoresSegs [] segs isDir = false :=
  ignoresFrom_nil_rules [] segs isDir

theorem scanEntries_dirsRead_ok (rules : List IgnoreRule) (root : List String) :
    ∀ (dirp : List String) (es : FSList) (tr : ScanTrace),
      scanEntries rules root dirp es = Except.ok tr →
      ∀ d ∈ tr.dirsRead, ignoresSegs rules (pathRelative root d) false = false := by
  intro dirp es
  induction dirp, es using scanEntries.induct rules root with
  | case1 dirp =>
    intro tr h d hd
    simp only [scanEntries] at h
    injection h with h2
    subst h2
    simp at hd
  | case2 dirp n rest hc tr0 hrest ih =>
    intro tr h d hd
    simp [scanEntries, hc, hrest] at h
    subst h
    exact ih tr0 hrest d hd
  | case3 dirp n rest hc e2 hrest ih =>
    intro tr h d hd
    simp [scanEntries, hc, hrest] at h
  | case4 dirp n rest hc tr0 hrest ih =>
    intro tr h d hd
    simp [scanEntries, hc, hrest] at h
    subst h
    exact ih tr0 hrest d hd
  | case5 dirp n rest hc e2 hrest ih =>
    intro tr h d hd
    simp [scanEntries, hc, hrest] at h
  | case6 dirp n rest hc tr0 hrest ih =>
    intro tr h d hd
    simp [scanEntries, hc, hrest] at h
    subst h
    exact ih tr0 hrest d hd
  | case7 dirp n rest hc e2 hrest ih =>
    intro tr h d hd
    simp [scanEntries, hc, hrest] at h
  | case8 dirp n rest hc =>
    intro tr h d hd
    simp [scanEntries, hc] at h
  | case9 dirp n cs rest hc tr0 hrest ih =>
    intro tr h d hd
    simp [scanEntries, hc, hrest] at h
    subst h
    exact ih tr0 hrest d hd
  | case10 dirp n cs rest hc e2 hrest ih =>
    intro tr h d hd
    simp [scanEntries, hc, hrest] at h
  | case11 dirp n cs rest hc e2 hcs ihcs =>
    intro tr h d hd
    simp [scanEntries, hc, hcs] at h
  | case12 dirp n cs rest hc sub hcs tr0 hrest ihcs ihrest =>
    intro tr h d hd
    simp [scanEntries, hc, hcs, hrest] at h
    subst h
    simp at hd
    rcases hd with hd | hd | hd
    · subst hd
      simp only [Bool.not_eq_true] at hc
      exact hc
    · exact ihcs sub hcs d hd
    · exact ihrest tr0 hrest d hd
  | case13 dirp n cs rest hc sub hcs e2 hrest ihcs =>
    intro tr h d hd
    simp [scanEntries, hc, hcs, hrest] at h

theorem scanEntries_no_rules (root : List String) :
    ∀ (dirp : List String) (es : FSList), errFree es = true →
      ∃ tr, scanEntries [] root dirp es = Except.ok tr ∧
        tr.files = (specRelFiles es).map (fun p => dirp ++ p) := by
  intro dirp es
  induction dirp, es using scanEntries.induct [] root with
  | case1 dirp =>
    intro _
    exact ⟨⟨[], [], []⟩, rfl, by simp [specRelFiles]⟩
  | case2 dirp n rest hc tr0 hrest ih =>
    exact absurd hc (by simp [ignoresSegs_nil_rules])
  | case3 dirp n rest hc e2 hrest ih =>
    exact absurd hc (by simp [ignoresSegs_nil_rules])
  | case4 dirp n rest hc tr0 hrest ih =>
    intro hef
    rcases ih (by simpa [errFree] using hef) with ⟨tr1, htr1, hf1⟩
    refine ⟨⟨(dirp ++ [n]) :: tr1.files, tr1.dirsRead,
      pathRelative root (dirp ++ [n]) :: tr1.queries⟩, ?_, ?_⟩
    · simp [scanEntries, hc, htr1]
    · simp [specRelFiles, hf1]
  | case5 dirp n rest hc e2 hrest ih =>
    intro hef
    rcases ih (by simpa [errFree] using hef) with ⟨tr1, htr1, hf1⟩
    rw [htr1] at hrest
    exact absurd hrest (by simp)
  | case6 dirp n rest hc tr0 hrest ih =>
    exact absurd hc (by simp [ignoresSegs_nil_rules])
  | case7 dirp n rest hc e2 hrest ih =>
    exact absurd hc (by simp [ignoresSegs_nil_rules])
  | case8 dirp n rest hc =>
    intro hef
    exact absurd hef (by simp [errFree])
  | case9 dirp n cs rest hc tr0 hrest ih =>
    exact absurd hc (by simp [ignoresSegs_nil_rules])
  | case10 dirp n cs rest hc e2 hrest ih =>
    exact absurd hc (by simp [ignoresSegs_nil_rules])
  | case11 dirp n cs rest hc e2 hcs ihcs =>
    intro hef
    have hef' : errFree cs = true ∧ errFree rest = true := by
      simpa [errFree] using hef
    rcases ihcs hef'.1 with ⟨tr1, htr1, hf1⟩
    rw [htr1] at hcs
    exact absurd hcs (by simp)
  | case12 dirp n cs rest hc sub hcs tr0 hrest ihcs ihrest =>
    intro hef
    have hef' : errFree cs = true ∧ errFree rest = true := by
      simpa [errFree] using hef
    rcases ihcs hef'.1 with ⟨tr1, htr1, hf1⟩
    rcases ihrest hef'.2 with ⟨tr2, htr2, hf2⟩
    refine ⟨⟨tr1.files ++ tr2.files, (dirp ++ [n]) :: (tr1.dirsRead ++ tr2.dirsRead),
      pathRelative root (dirp ++ [n]) :: (tr1.queries ++ tr2.queries)⟩, ?_, ?_⟩
    · simp [scanEntries, hc, htr1, htr2]
    · simp only [specRelFiles, List.map_append, List.map_map]
      rw [hf1, hf2]
      congr 1
      apply List.map_congr_left
      intro p _
      simp
  | case13 dirp n cs rest hc sub hcs e2 hrest ihcs ihrest =>
    intro hef
    have hef' : errFree cs = true ∧ errFree rest = true := by
      simpa [errFree] using hef
    rcases ihrest hef'.2 with ⟨tr2, htr2, hf2⟩
    rw [htr2] at hrest
    exact absurd hrest (by simp)

theorem mem_specRelFiles_head :
    ∀ (es : FSList) (p : List String), p ∈ specRelFiles es →
      ∃ n t, p = n :: t ∧ n ∈ fsNames es := by
  intro es
  induction es using specRelFiles.induct with
  | case1 =>
    intro p hp
    simp [specRelFiles] at hp
  | case2 n rest ih =>
    intro p hp
    simp only [specRelFiles, List.mem_cons] at hp
    rcases hp with hp | hp
    · exact ⟨n, [], hp, by simp [fsNames, nodeName]⟩
    · rcases ih p hp with ⟨n', t, h1, h2⟩
      exact ⟨n', t, h1, by simp [fsNames, h2]⟩
  | case3 n rest ih =>
    intro p hp
    simp only [specRelFiles] at hp
    rcases ih p hp with ⟨n', t, h1, h2⟩
    exact ⟨n', t, h1, by simp [fsNames, h2]⟩
  | case4 n cs rest ihcs ihrest =>
    intro p hp
    simp only [specRelFiles, List.mem_append, List.mem_map] at hp
    rcases hp with ⟨q, _, hq⟩ | hp
    · exact ⟨n, q, hq.symm, by simp [fsNames, nodeName]⟩
    · rcases ihrest p hp with ⟨n', t, h1, h2⟩
      exact ⟨n', t, h1, by simp [fsNames, h2]⟩

theorem specRelFiles_nodup :
    ∀ (es : FSList), wfEntries es = true → (specRelFiles es).Nodup := by
  intro es
  induction es using wfEntries.induct with
  | case1 =>
    intro _
    simp [specRelFiles]
  | case2 n cs rest ihcs ihrest =>
    intro hwf
    have h3 : (n ∉ fsNames rest ∧ wfEntries cs = true) ∧ wfEntries rest = true := by
      simpa [wfEntries] using hwf
    simp only [specRelFiles]
    apply List.Nodup.append
    · exact (ihcs h3.1.2).map (fun a b hab => by injection hab)
    · exact ihrest h3.2
    · intro p hp1 hp2
      rcases List.mem_map.mp hp1 with ⟨q, _, hq⟩
      rcases mem_specRelFiles_head rest p hp2 with ⟨n', t, h1, h2⟩
      rw [← hq] at h1
      injection h1 with h1a _
      subst h1a
      exact absurd h2 h3.1.1
  | case3 e rest hne ih =>
    intro hwf
    cases e with
    | file n =>
      have h3 : n ∉ fsNames rest ∧ wfEntries rest = true := by
        simpa [wfEntries, nodeName] using hwf
      simp only [specRelFiles]
      apply List.nodup_cons.mpr
      refine ⟨?_, ih h3.2⟩
      intro hmem
      rcases mem_specRelFiles_head rest [n] hmem with ⟨n', t, h1, h2⟩
      injection h1 with h1a _
      subst h1a
      exact h3.1 h2
    | broken n =>
      have h3 : wfEntries rest = true := by
        have h4 := hwf
        simp [wfEntries, nodeName] at h4
        exact h4.2
      simpa [specRelFiles] using ih h3
    | dir n cs => exact (hne n cs rfl).elim

theorem pathRelative_shift (r root p : List String) :
    pathRelative (r ++ root) (r ++ p) = pathRelative root p := by
  simp only [pathRelative, List.length_append]
  rw [← List.drop_drop, List.drop_left]

theorem scanEntries_reloc (rules : List IgnoreRule) (root : List String) :
    ∀ (dirp : List String) (es : FSList) (r : List String),
      scanEntries rules (r ++ root) (r ++ dirp) es =
        relocResult r (scanEntries rules root dirp es) := by
  intro dirp es
  induction dirp, es using scanEntries.induct rules root with
  | case1 dirp =>
    intro r
    simp [scanEntries, relocResult, relocTrace]
  | case2 dirp n rest hc tr0 hrest ih =>
    intro r
    have hfull : (r ++ dirp) ++ [n] = r ++ (dirp ++ [n]) := by simp
    simp [scanEntries, hfull, pathRelative_shift, hc, hrest, ih r, relocResult, relocTrace]
  | case3 dirp n rest hc e2 hrest ih =>
    intro r
    have hfull : (r ++ dirp) ++ [n] = r ++ (dirp ++ [n]) := by simp
    simp [scanEntries, hfull, pathRelative_shift, hc, hrest, ih r, relocResult, relocErr]
  | case4 dirp n rest hc tr0 hrest ih =>
    intro r
    have hfull : (r ++ dirp) ++ [n] = r ++ (dirp ++ [n]) := by simp
    simp [scanEntries, hfull, pathRelative_shift, hc, hrest, ih r, relocResult, relocTrace]
  | case5 dirp n rest hc e2 hrest ih =>
    intro r
    have hfull : (r ++ dirp) ++ [n] = r ++ (dirp ++ [n]) := by simp
    simp [scanEntries, hfull, pathRelative_shift, hc, hrest, ih r, relocResult, relocErr]
  | case6 dirp n rest hc tr0 hrest ih =>
    intro r
    have hfull : (r ++ dirp) ++ [n] = r ++ (dirp ++ [n]) := by simp
    simp [scanEntries, hfull, pathRelative_shift, hc, hrest, ih r, relocResult, relocTrace]
  | case7 dirp n rest hc e2 hrest ih =>
    intro r
    have hfull : (r ++ dirp) ++ [n] = r ++ (dirp ++ [n]) := by simp
    simp [scanEntries, hfull, pathRelative_shift, hc, hrest, ih r, relocResult, relocErr]
  | case8 dirp n rest hc =>
    intro r
    have hfull : (r ++ dirp) ++ [n] = r ++ (dirp ++ [n]) := by simp
    simp [scanEntries, hfull, pathRelative_shift, hc, relocResult, relocErr]
  | case9 dirp n cs rest hc tr0 hrest ih =>
    intro r
    have hfull : (r ++ dirp) ++ [n] = r ++ (dirp ++ [n]) := by simp
    simp [scanEntries, hfull, pathRelative_shift, hc, hrest, ih r, relocResult, relocTrace]
  | case10 dirp n cs rest hc e2 hrest ih =>
    intro r
    have hfull : (r ++ dirp) ++ [n] = r ++ (dirp ++ [n]) := by simp
    simp [scanEntries, hfull, pathRelative_shift, hc, hrest, ih r, relocResult, relocErr]
  | case11 dirp n cs rest hc e2 hcs ihcs =>
    intro r
    have hfull : (r ++ dirp) ++ [n] = r ++ (dirp ++ [n]) := by simp
    simp [scanEntries, hfull, pathRelative_shift, hc, hcs, ihcs r, relocResult, relocErr]
  | case12 dirp n cs rest hc sub hcs tr0 hrest ihcs ihrest =>
    intro r
    have hfull : (r ++ dirp) ++ [n] = r ++ (dirp ++ [n]) := by simp
    simp [scanEntries, hfull, pathRelative_shift, hc, hcs, hrest, ihcs r, ihrest r,
      relocResult, relocTrace]
  | case13 dirp n cs rest hc sub hcs e2 hrest ihcs ihrest =>
    intro r
    have hfull : (r ++ dirp) ++ [n] = r ++ (dirp ++ [n]) := by simp
    simp [scanEntries, hfull, pathRelative_shift, hc, hcs, hrest, ihcs r, ihrest r,
      relocResult, relocTrace, relocErr]

/-- Claim C3 (amended): the walker reads the entries only of directories
whose bare root-relative path the matcher does not exclude — it prunes at
every directory `shouldIgnore` reports excluded. Because the scanner
queries the matcher with a bare path (kind unknown), a directory excluded
only by a directory-only (trailing-slash) rule fails that bare check and
is descended into, though its files stay excluded; see the
counterexample. -/
theorem c3_prunes_only_matcher_excluded_dirs (rules : List IgnoreRule)
    (root : List String) (st : RootState) (tr : ScanTrace)
    (h : scanFiles rules root st = Except.ok tr) :
    ∀ d ∈ tr.dirsRead, ignoresSegs rules (pathRelative root d) false = false := by
  intro d hd
  cases st with
  | missing => simp [scanFiles] at h
  | notADirectory => simp [scanFiles] at h
  | directory es =>
    cases hres : scanEntries rules root root es with
    | error e2 => simp [scanFiles, hres] at h
    | ok tr0 =>
      simp [scanFiles, hres] at h
      subst h
      simp at hd
      rcases hd with hd | hd
      · rw [hd]
        have hrel : pathRelative root root = [] := by simp [pathRelative]
        rw [hrel]
        rfl
      · exact scanEntries_dirsRead_ok rules root root es tr0 hres d hd

/-- Claim C3, the claim as stated is false: with the directory-only rule
`build/`, the directory `build` is excluded by the dialect (queried as a
directory it is excluded, and every file under it is excluded), yet the
scan reads the entries of `build` — its path appears among the directories
read — because the bare-path query does not match the trailing-slash
rule. -/
theorem c3_prunes_only_matcher_excluded_dirs_counterexample :
    ignoresSegs rulesDirOnlyExample ["build"] true = true ∧
      ignoresSegs rulesDirOnlyExample ["build", "keep.txt"] false = true ∧
      scanFiles rulesDirOnlyExample [] treeBuildExample =
        Except.ok ⟨[["a.txt"]], [[], ["build"]],
          [["build"], ["build", "keep.txt"], ["a.txt"]]⟩ ∧
      ["build"] ∈ dirsReadOfResult (scanFiles rulesDirOnlyExample [] treeBuildExample) :=
  ⟨by decide, by decide, rfl, by decide⟩

/-- Claim C3, witness: in the counterexample scan, the directory that was
read passes the bare-path matcher check, as the amended claim states. -/
theorem c3_prunes_only_matcher_excluded_dirs_witness :
    ignoresSegs rulesDirOnlyExample (pathRelative [] ["build"]) false = false :=
  c3_prunes_only_matcher_excluded_dirs rulesDirOnlyExample [] treeBuildExample
    ⟨[["a.txt"]], [[], ["build"]], [["build"], ["build", "keep.txt"], ["a.txt"]]⟩
    rfl ["build"] (by decide)

/-- Claim C4 (amended): a stat failure on a non-excluded entry rejects the
whole scan with that entry's error — the source loop has no try/catch, so
nothing after the failing entry is scanned and no file list is returned. -/
theorem c4_stat_failure_aborts_scan (rules : List IgnoreRule) (root dirp : List String)
    (n : String) (rest : FSList)
    (h : ignoresSegs rules (pathRelative root (dirp ++ [n])) false = false) :
    scanEntries rules root dirp (FSList.cons (FSNode.broken n) rest) =
      Except.error (ScanErr.statFailed (dirp ++ [n])) := by
  simp [scanEntries, h]

/-- Claim C4, the claim as stated is false: in a tree whose middle entry
fails to stat, the scan fails as a whole instead of skipping the entry —
the readable files `a.txt` and `c.txt` are not returned. -/
theorem c4_stat_failure_aborts_scan_counterexample :
    scanFiles (loadGitignore none) [] treeBrokenExample =
      Except.error (ScanErr.statFailed ["b.txt"]) := rfl

/-- Claim C4, witness: the amended theorem applied to a concrete broken
entry. -/
theorem c4_stat_failure_aborts_scan_witness :
    scanEntries (loadGitignore none) [] []
        (FSList.cons (FSNode.broken "b.txt") (fsList [FSNode.file "c.txt"])) =
      Except.error (ScanErr.statFailed ([] ++ ["b.txt"])) :=
  c4_stat_failure_aborts_scan (loadGitignore none) [] [] "b.txt"
    (fsList [FSNode.file "c.txt"]) (by decide)

/-- Claim C5: scanning a missing root or a root that is not a directory
fails with the corresponding explicit error (readdir's ENOENT / ENOTDIR
propagates) and never yields a success result, in particular never an
empty file list passed off as success. -/
theorem c5_bad_root_fails_never_empty_ok (rules : List IgnoreRule) (root : List String) :
    scanFiles rules root RootState.missing = Except.error ScanErr.rootMissing ∧
      scanFiles rules root RootState.notADirectory = Except.error ScanErr.rootNotDirectory ∧
      (scanFiles rules root RootState.missing).isOk = false ∧
      (scanFiles rules root RootState.notADirectory).isOk = false :=
  ⟨rfl, rfl, rfl, rfl⟩

/-- Claim C6: with no ignore file present, scanning a well-formed,
error-free tree succeeds and returns exactly the regular files under the
root — the returned list equals the tree's file list and has no
duplicates. -/
theorem c6_no_ignore_scan_returns_all_files_once (root : List String) (es : FSList)
    (hwf : wfEntries es = true) (hef : errFree es = true) :
    ∃ tr, scanFiles (loadGitignore none) root (RootState.directory es) = Except.ok tr ∧
      tr.files = (specRelFiles es).map (fun p => root ++ p) ∧ tr.files.Nodup := by
  rcases scanEntries_no_rules root root es hef with ⟨tr0, htr0, hf0⟩
  refine ⟨⟨tr0.files, root :: tr0.dirsRead, tr0.queries⟩, ?_, ?_, ?_⟩
  · show scanFiles [] root (RootState.directory es) = _
    simp [scanFiles, htr0]
  · exact hf0
  · rw [hf0]
    apply List.Nodup.map
    · intro a b hab
      exact List.append_cancel_left hab
    · exact specRelFiles_nodup es hwf

/-- Claim C6, witness: the theorem applied to a small concrete tree. -/
theorem c6_no_ignore_scan_returns_all_files_once_witness :
    ∃ tr, scanFiles (loadGitignore none) ["home"] (RootState.directory treePlainEntries) =
        Except.ok tr ∧
      tr.files = (specRelFiles treePlainEntries).map (fun p => ["home"] ++ p) ∧
      tr.files.Nodup :=
  c6_no_ignore_scan_returns_all_files_once ["home"] treePlainEntries (by decide) (by decide)

/-- Claim C8: two consecutive scans of the same unmodified tree return the
same result, in particular the same file set — each scan owns a fresh
accumulator and the rule set is read-only, so nothing carries over. -/
theorem c8_scan_idempotent (rules : List IgnoreRule) (root : List String) (st : RootState) :
    (scanTwice rules root st).1 = (scanTwice rules root st).2 ∧
      ∀ p, p ∈ filesOfResult (scanTwice rules root st).1 ↔
        p ∈ filesOfResult (scanTwice rules root st).2 :=
  ⟨rfl, fun _ => Iff.rfl⟩

/-- Claim C9: every path handed to the matcher is root-relative, never
absolute — a scan from any absolute root equals the scan from the empty
root with all absolute outputs (files, directories read, error paths)
prefixed by the root while the matcher queries are unchanged. Root-anchored
rules therefore behave identically wherever the project root lives. -/
theorem c9_matcher_queries_root_relative (rules : List IgnoreRule)
    (root : List String) (st : RootState) :
    scanFiles rules root st = relocResult root (scanFiles rules [] st) := by
  cases st with
  | missing => simp [scanFiles, relocResult, relocErr]
  | notADirectory => simp [scanFiles, relocResult, relocErr]
  | directory es =>
    have h := scanEntries_reloc rules [] [] es root
    rw [List.append_nil] at h
    cases hres : scanEntries rules [] [] es with
    | ok tr =>
      rw [hres] at h
      simp [scanFiles, h, hres, relocResult, relocTrace]
    | error e2 =>
      rw [hres] at h
      simp [scanFiles, h, hres, relocResult, relocErr]

/-- Claim C10: `mergeDefaultOptions` uses JavaScript `||`, so an explicit
compression level 0 falls back to the default 6 while levels 1–9 are
preserved, and an explicitly empty output path or name falls back to its
default. -/
theorem c10_falsy_options_fall_back (o : ZipOptions) :
    (mergeDefaultOptions { o with compressionLevel := some 0 }).compressionLevel = 6 ∧
      (∀ v, 1 ≤ v → v ≤ 9 →
        (mergeDefaultOptions { o with compressionLevel := some v }).compressionLevel = v) ∧
      (mergeDefaultOptions { o with outputPath := some "" }).outputPath = "./dist" ∧
      (mergeDefaultOptions { o with outputName := some "" }).outputName = "project.zip" := by
  refine ⟨rfl, ?_, rfl, rfl⟩
  intro v h1 h9
  simp only [mergeDefaultOptions, jsOrNat]
  rw [if_neg (by omega)]

/-- Claim C10, witness: the theorem applied at concrete option records. -/
theorem c10_falsy_options_fall_back_witness :
    (mergeDefaultOptions { compressionLevel := some 0 }).compressionLevel = 6 ∧
      (mergeDefaultOptions { compressionLevel := some 3 }).compressionLevel = 3 ∧
      (mergeDefaultOptions { outputPath := some "" }).outputPath = "./dist" ∧
      (mergeDefaultOptions { outputName := some "" }).outputName = "project.zip" :=
  ⟨(c10_falsy_options_fall_back {}).1,
    (c10_falsy_options_fall_back {}).2.1 3 (by decide) (by decide),
    (c10_falsy_options_fall_back {}).2.2.1,
    (c10_falsy_options_fall_back {}).2.2.2⟩
